import Mathlib

/-!
Verification of the rudu disk-usage analyzer core (scanner, cache store,
memory monitor) against its natural-language specification.

The Rust sources are shallowly embedded:

* Filesystem paths (`PathBuf`) are modelled as lists of component
  identifiers (`Path := List Nat`); `Path::parent` is `List.dropLast`,
  path components that are fixed names in the source (".cache", "rudu",
  the hex file names) are modelled by injectively chosen numeric
  component identifiers.
* `u64` / `u32` quantities are modelled as `Nat` (the code never relies
  on wraparound: the only subtraction is `saturating_sub`, which is
  exactly `Nat` truncated subtraction).
* The version string `CARGO_PKG_VERSION` is an opaque token, modelled as
  a `Nat` parameter.
* `std::collections::hash_map::DefaultHasher` path hashing is an opaque
  function, modelled as an explicit function parameter `hash : Path → Nat`.
* The on-disk filesystem visible to the cache store is a map from paths
  to file contents.  bincode (de)serialization is modelled by a
  `FileContent` sum: a value of the current `Cache` structure, a legacy
  bare map, an empty file, or garbage bytes; deserialization succeeds
  exactly on the matching constructor.  The temporary-file plus rename
  protocol of `save_cache_to_file` is modelled as one atomic update of
  the final path (the claims under study do not concern crash states),
  and directory creation is not represented (the filesystem map only
  tracks regular files).
* `SystemTime::now()`, observed `stat` data (`st_blocks`, `st_mtime`,
  `st_nlink`) and process RSS samples are inputs, passed explicitly.
* The `f64` arithmetic of `MemoryMonitor::nearing_limit` is embedded
  exactly: the IEEE-754 binary64 values arising there are nonnegative
  dyadic rationals, represented as significand-exponent pairs with a
  53-bit significand, and rounding to nearest (ties to even) is
  implemented on naturals (the values involved are strictly inside the
  normal range, so neither overflow nor subnormals arise).
-/

/-- A filesystem path, as its list of components (`PathBuf`).
`List.dropLast` is `Path::parent` (for a nonempty path). -/
abbrev RPath : Type := List Nat

/-- Mirror of `data::EntryType`. -/
inductive EntryType where
  | File : EntryType
  | Dir : EntryType
deriving DecidableEq, Repr

/-- Mirror of `cache::model::CacheEntry` (src/cache/model.rs). -/
structure CacheEntry where
  path_hash : Nat
  path : RPath
  size : Nat
  mtime : Nat
  nlink : Nat
  inode_cnt : Option Nat
  owner : Option Nat
  entry_type : EntryType
deriving DecidableEq, Repr

/-- Mirror of `cache::model::CacheHeader`. -/
structure CacheHeader where
  root_path : RPath
  creation_time : Nat
  rudu_version : Nat
  root_mtime : Option Nat
deriving DecidableEq, Repr

/-- Mirror of `cache::model::Cache`: a header plus the map from path
hashes to entries, the map being represented as an association list. -/
structure Cache where
  header : CacheHeader
  entries : List (Nat × CacheEntry)
deriving DecidableEq, Repr

/-- Mirror of `utils::DirMetadata` (the fields the scanner reads). -/
structure DirMetadata where
  mtime : Nat
  nlink : Nat
  size : Nat
  owner : Option Nat
deriving DecidableEq, Repr

/-- `CacheEntry::is_valid` (src/cache/model.rs lines 169-173):
`self.mtime == current_mtime && self.nlink == current_nlink`. -/
def CacheEntry.is_valid (e : CacheEntry) (current_mtime current_nlink : Nat) : Bool :=
  decide (e.mtime = current_mtime) && decide (e.nlink = current_nlink)

/-- The cache-skip decision taken inside the `filter_entry` closure of
`scan_files_and_dirs_with_monitor` (src/scan.rs lines 675-734): a
subtree rooted at `p` is skipped exactly when `p` is a directory, the
cache is in use, a cached entry for `p` exists, current metadata for `p`
is obtainable, and the entry is valid against that metadata. -/
def shouldSkipSubtree (no_cache : Bool) (cache : RPath → Option CacheEntry)
    (meta : RPath → Option DirMetadata) (is_dir : Bool) (p : RPath) : Bool :=
  is_dir && !no_cache &&
    (match cache p with
     | some ce =>
       (match meta p with
        | some m => ce.is_valid m.mtime m.nlink
        | none => false)
     | none => false)

/-- `CacheHeader::should_invalidate` (src/cache/model.rs lines 107-142),
with the ambient observations passed explicitly: `now` is
`SystemTime::now()` in unix seconds, `currentVersion` is
`CARGO_PKG_VERSION`, and `currentRootMtime` is `get_root_mtime(root_path)`.
`saturating_sub` on `u64` is `Nat` subtraction. -/
def CacheHeader.should_invalidate (h : CacheHeader) (root_path : RPath)
    (ttl_seconds : Nat) (now : Nat) (currentVersion : Nat)
    (currentRootMtime : Option Nat) : Bool :=
  if h.rudu_version ≠ currentVersion then true
  else if ttl_seconds ≤ now - h.creation_time then true
  else if h.root_path ≠ root_path then true
  else
    match currentRootMtime with
    | some c =>
      (match h.root_mtime with
       | some k => decide (c ≠ k)
       | none => true)
    | none => false

/-- The invalidation predicate exactly as the specification words it
(claim C3): version mismatch, or `now - creation_time >= ttl` (boundary
inclusive), or root path mismatch, or the current root mtime differs
from the stored one, or the header stores none. -/
def shouldInvalidateSpec (h : CacheHeader) (root_path : RPath)
    (ttl_seconds : Nat) (now : Nat) (currentVersion : Nat)
    (currentRootMtime : Option Nat) : Bool :=
  decide (h.rudu_version ≠ currentVersion) ||
  decide (ttl_seconds ≤ now - h.creation_time) ||
  decide (h.root_path ≠ root_path) ||
  decide (currentRootMtime ≠ h.root_mtime) ||
  decide (h.root_mtime = none)

/-- C2: a cache entry is judged valid, and the subtree therefore
skipped, exactly when both the cached mtime and the cached nlink equal
the currently observed values; in particular a changed nlink with an
unchanged mtime invalidates, and (given a present cache entry and
readable metadata) the subtree-skip decision coincides with the validity
verdict. -/
theorem cacheEntry_is_valid_iff (e : CacheEntry) (cm cn : Nat)
    (cache : RPath → Option CacheEntry) (meta : RPath → Option DirMetadata)
    (p : RPath) (hc : cache p = some e)
    (hm : meta p = some { mtime := cm, nlink := cn, size := 0, owner := none }) :
    (e.is_valid cm cn = true ↔ (e.mtime = cm ∧ e.nlink = cn)) ∧
    (∀ n, n ≠ e.nlink → e.is_valid e.mtime n = false) ∧
    shouldSkipSubtree false cache meta true p = e.is_valid cm cn := by
  refine ⟨?_, ?_, ?_⟩
  · simp [CacheEntry.is_valid]
  · intro n hne
    simp [CacheEntry.is_valid]
    intro h
    exact (hne h.symm).elim
  · simp [shouldSkipSubtree, hc, hm]

/-- A concrete cache entry used by the witness of
`cacheEntry_is_valid_iff`. -/
def witnessEntryC2 : CacheEntry :=
  { path_hash := 5, path := [1], size := 10, mtime := 7, nlink := 3,
    inode_cnt := none, owner := none, entry_type := EntryType.Dir }

/-- Closed witness for `cacheEntry_is_valid_iff` at a concrete entry and
observation. -/
theorem cacheEntry_is_valid_iff_witness :
    (witnessEntryC2.is_valid 7 3 = true ↔
      (witnessEntryC2.mtime = 7 ∧ witnessEntryC2.nlink = 3)) ∧
    witnessEntryC2.is_valid witnessEntryC2.mtime 4 = false ∧
    shouldSkipSubtree false (fun p => if p = [1] then some witnessEntryC2 else none)
      (fun p => if p = [1] then
          some { mtime := 7, nlink := 3, size := 0, owner := none } else none)
      true [1] = witnessEntryC2.is_valid 7 3 :=
  have h := cacheEntry_is_valid_iff witnessEntryC2 7 3
    (fun p => if p = [1] then some witnessEntryC2 else none)
    (fun p => if p = [1] then
        some { mtime := 7, nlink := 3, size := 0, owner := none } else none)
    [1] (by decide) (by decide)
  ⟨h.1, h.2.1 4 (by decide), h.2.2⟩

/-- C3 counterexample: with a header whose `root_mtime` is absent and
every other condition satisfied (matching version, fresh creation time,
matching root), and with the current root mtime unobservable,
`should_invalidate` returns false (the cache is kept), while the claim,
which invalidates whenever the header has no stored root mtime, demands
true.  The code only runs the mtime clause when the current root mtime
is observable. -/
theorem shouldInvalidate_claim_counterexample :
    CacheHeader.should_invalidate
      { root_path := [0], creation_time := 10, rudu_version := 1,
        root_mtime := none } [0] 100 10 1 none = false ∧
    shouldInvalidateSpec
      { root_path := [0], creation_time := 10, rudu_version := 1,
        root_mtime := none } [0] 100 10 1 none = true := by
  decide

/-- C3 amended: `should_invalidate` returns true iff the version
mismatches, or `now - creation_time ≥ ttl` (Nat subtraction, boundary
inclusive: a cache created exactly `ttl` seconds ago invalidates), or
the root path differs, or the current root mtime is observable and
either the header stores no root mtime or stores a different one.  When
the current root mtime is unobservable the mtime clause is skipped. -/
theorem shouldInvalidate_iff (h : CacheHeader) (root : RPath) (ttl now v : Nat)
    (cur : Option Nat) :
    h.should_invalidate root ttl now v cur = true ↔
      (h.rudu_version ≠ v ∨ ttl ≤ now - h.creation_time ∨ h.root_path ≠ root ∨
        (∃ c, cur = some c ∧ (h.root_mtime = none ∨ h.root_mtime ≠ some c))) := by
  unfold CacheHeader.should_invalidate
  by_cases hv : h.rudu_version = v <;>
    by_cases ht : ttl ≤ now - h.creation_time <;>
    by_cases hr : h.root_path = root <;>
    rcases cur with _ | c <;>
    rcases hk : h.root_mtime with _ | k <;>
    simp [hv, ht, hr, hk] <;>
    try exact ne_comm

/-- Closed witness for `shouldInvalidate_iff`: a header aged exactly to
the TTL boundary invalidates. -/
theorem shouldInvalidate_iff_witness :
    CacheHeader.should_invalidate
      { root_path := [0], creation_time := 10, rudu_version := 1,
        root_mtime := some 5 } [0] 90 100 1 (some 5) = true :=
  (shouldInvalidate_iff
    { root_path := [0], creation_time := 10, rudu_version := 1,
      root_mtime := some 5 } [0] 90 100 1 (some 5)).mpr
    (Or.inr (Or.inl (by decide)))

/-- An entry produced by the `WalkDir` traversal: its path and whether
`file_type().is_file()` holds (directories and other kinds are
`is_file = false`). -/
structure WalkEntry where
  path : RPath
  is_file : Bool
deriving DecidableEq, Repr

/-- `utils::disk_usage` (src/utils.rs lines 36-52): `st_blocks * 512`,
with `blocks` the per-path allocated-block count observed by `stat` at
scan time. -/
def disk_usage (blocks : RPath → Nat) (p : RPath) : Nat :=
  blocks p * 512

/-- The parent-path chain computed in the disk-I/O phase of
`scan_files_and_dirs_with_monitor` (src/scan.rs lines 784-797): starting
from `path.parent()`, push each parent and stop after pushing `root`
(or when no parent remains).  The fuel argument (instantiated with the
length of the path, which bounds the chain) makes the recursion
structural. -/
def parentPathsAux (root : RPath) : Nat → RPath → List RPath
  | 0, _ => []
  | _, [] => []
  | Nat.succ n, p@(_ :: _) =>
    let q := p.dropLast
    if q = root then [q] else q :: parentPathsAux root n q

/-- The parent paths of `p` recorded by a file scan job. -/
def parentPaths (root p : RPath) : List RPath :=
  parentPathsAux root p.length p

/-- Mirror of `scan::ScanJob`. -/
structure ScanJob where
  path : RPath
  is_file : Bool
  size : Nat
  parent_paths : List RPath
deriving DecidableEq, Repr

/-- Construction of one `ScanJob` in the disk-I/O phase (src/scan.rs
lines 777-806): files get their disk usage and parent chain, other
entries get size 0 and no parents. -/
def mkScanJob (blocks : RPath → Nat) (root : RPath) (e : WalkEntry) : ScanJob :=
  { path := e.path,
    is_file := e.is_file,
    size := if e.is_file then disk_usage blocks e.path else 0,
    parent_paths := if e.is_file then parentPaths root e.path else [] }

/-- One `DashMap` update `entry(p).and_modify(|v| *v += s).or_insert(s)`:
the map is modelled as a total function that is zero outside its
support. -/
def bumpBy (m : RPath → Nat) (p : RPath) (s : Nat) : RPath → Nat :=
  fun d => if d = p then m d + s else m d

/-- Contribution of one scan job to `dir_totals` (the inner loop of the
aggregation phase, src/scan.rs lines 813-822). -/
def addJobTotals (m : RPath → Nat) (j : ScanJob) : RPath → Nat :=
  if j.is_file then j.parent_paths.foldl (fun acc p => bumpBy acc p j.size) m
  else m

/-- The `dir_totals` map after the aggregation phase. -/
def dirTotals (jobs : List ScanJob) : RPath → Nat :=
  jobs.foldl addJobTotals (fun _ => 0)

/-- The `directory_children` map (src/scan.rs lines 825-831): one
increment per job under its immediate parent, when inode counting is
active. -/
def directoryChildren (jobs : List ScanJob) : RPath → Nat :=
  jobs.foldl
    (fun m j => if j.path = [] then m else bumpBy m j.path.dropLast 1)
    (fun _ => 0)

/-- Mirror of `data::FileEntry`; the owner is resolved through an oracle
`ownerOf` standing for `utils::get_owner`. -/
structure FileEntry where
  path : RPath
  size : Nat
  owner : Option Nat
  inodes : Option Nat
  entry_type : EntryType
deriving DecidableEq, Repr

/-- Composition of one output record from a scan job
(src/scan.rs lines 834-897, with the cache empty so no cached entry
interferes and memory is not nearing its limit). -/
def composeEntry (showOwner showInodes : Bool) (ownerOf : RPath → Option Nat)
    (totals children : RPath → Nat) (j : ScanJob) : FileEntry :=
  if j.is_file then
    { path := j.path, size := j.size,
      owner := if showOwner then ownerOf j.path else none,
      inodes := none, entry_type := EntryType.File }
  else
    { path := j.path, size := totals j.path,
      owner := if showOwner then ownerOf j.path else none,
      inodes := if showInodes then some (children j.path) else none,
      entry_type := EntryType.Dir }

/-- All prefixes of `p` that are at least as deep as `root`: the chain
of paths the `WalkDir` traversal must have admitted for `p` to be
yielded. -/
def walkChain (root p : RPath) : List RPath :=
  ((List.range (p.length + 1)).map (fun n => p.take n)).filter
    (fun q => decide (root.length ≤ q.length))

/-- Whether `p` survives the `filter_entry` pruning of the walk
(src/scan.rs lines 659-673): neither `p` nor any ancestor of it from
`root` downward is excluded.  `excluded` stands for the disjunction of
the glob matcher and the component-name list. -/
def survivesWalk (excluded : RPath → Bool) (root p : RPath) : Bool :=
  (walkChain root p).all (fun q => !excluded q)

/-- The walk entries that survive pruning. -/
def survivors (excluded : RPath → Bool) (root : RPath)
    (entries : List WalkEntry) : List WalkEntry :=
  entries.filter (fun e => survivesWalk excluded root e.path)

/-- The scan jobs of a fresh (cache-less) incremental scan. -/
def scanJobs (blocks : RPath → Nat) (excluded : RPath → Bool) (root : RPath)
    (entries : List WalkEntry) : List ScanJob :=
  (survivors excluded root entries).map (mkScanJob blocks root)

/-- The `FileEntry` records emitted by a fresh (cache-less) scan, before
sorting (sorting permutes the list and does not change any record). -/
def scanEntries (blocks : RPath → Nat) (excluded : RPath → Bool)
    (showOwner showInodes : Bool) (ownerOf : RPath → Option Nat)
    (root : RPath) (entries : List WalkEntry) : List FileEntry :=
  let jobs := scanJobs blocks excluded root entries
  jobs.map (composeEntry showOwner showInodes ownerOf
    (dirTotals jobs) (directoryChildren jobs))

/-- The claim-side aggregate: the sum of `st_blocks * 512` over the
surviving files strictly inside the subtree of `d`. -/
def subtreeFileSum (blocks : RPath → Nat) (excluded : RPath → Bool)
    (root : RPath) (entries : List WalkEntry) (d : RPath) : Nat :=
  (((survivors excluded root entries).filter
      (fun e => e.is_file && d.isPrefixOf e.path && !(d == e.path))).map
    (fun e => blocks e.path * 512)).sum


theorem length_lt_of_mem_parentPathsAux (root : RPath) :
    ∀ (n : Nat) (p d : RPath), d ∈ parentPathsAux root n p → d.length < p.length := by
  intro n
  induction n with
  | zero => intro p d hd; simp [parentPathsAux] at hd
  | succ n ih =>
    intro p d hd
    match p with
    | [] => simp [parentPathsAux] at hd
    | a :: l =>
      simp only [parentPathsAux] at hd
      by_cases hq : (a :: l).dropLast = root
      · rw [if_pos hq] at hd
        simp only [List.mem_singleton] at hd
        subst hd
        simp
      · rw [if_neg hq] at hd
        rcases List.mem_cons.mp hd with h1 | h2
        · subst h1; simp
        · have h3 := ih (a :: l).dropLast d h2
          have h4 : ((a :: l).dropLast).length = l.length := by simp
          simp only [List.length_cons]
          omega

theorem nodup_parentPathsAux (root : RPath) :
    ∀ (n : Nat) (p : RPath), (parentPathsAux root n p).Nodup := by
  intro n
  induction n with
  | zero => intro p; simp [parentPathsAux]
  | succ n ih =>
    intro p
    match p with
    | [] => simp [parentPathsAux]
    | a :: l =>
      simp only [parentPathsAux]
      by_cases hq : (a :: l).dropLast = root
      · rw [if_pos hq]
        exact List.nodup_singleton _
      · rw [if_neg hq]
        refine List.Nodup.cons ?_ (ih _)
        intro hmem
        exact absurd (length_lt_of_mem_parentPathsAux root n _ _ hmem)
          (lt_irrefl _)

theorem mem_parentPathsAux_iff (root : RPath) :
    ∀ (n : Nat) (p : RPath), p.length ≤ n → root <+: p →
      ∀ d : RPath, root <+: d →
        (d ∈ parentPathsAux root n p ↔ (d <+: p ∧ d ≠ p)) := by
  intro n
  induction n with
  | zero =>
    intro p hn _ d _
    have hp : p = [] := List.length_eq_zero.mp (Nat.le_zero.mp hn)
    subst hp
    simp only [parentPathsAux, List.not_mem_nil, false_iff, not_and]
    intro hpre hne
    exact hne (List.prefix_nil.mp hpre)
  | succ n ih =>
    intro p hn hr d hd
    match p with
    | [] =>
      simp only [parentPathsAux, List.not_mem_nil, false_iff, not_and]
      intro hpre hne
      exact hne (List.prefix_nil.mp hpre)
    | a :: l =>
      have hqpre : (a :: l).dropLast <+: (a :: l) := List.dropLast_prefix _
      have hqlen : ((a :: l).dropLast).length = l.length := by simp
      simp only [parentPathsAux]
      by_cases hq : (a :: l).dropLast = root
      · rw [if_pos hq]
        simp only [List.mem_singleton]
        constructor
        · intro hmem
          subst hmem
          refine ⟨hqpre, fun heq => ?_⟩
          have hcl := congrArg List.length heq
          rw [hqlen] at hcl
          simp only [List.length_cons] at hcl
          omega
        · rintro ⟨hpre, hne⟩
          have hlt : d.length < (a :: l).length :=
            Nat.lt_of_le_of_ne hpre.length_le
              (fun hc => hne (hpre.eq_of_length hc))
          have hrootlen : root.length = l.length := by rw [← hq]; exact hqlen
          have hle : d.length ≤ root.length := by
            simp only [List.length_cons] at hlt
            omega
          have hdr : d <+: root := List.prefix_of_prefix_length_le hpre hr hle
          have hdeq : d = root :=
            hdr.eq_of_length (Nat.le_antisymm hle hd.length_le)
          rw [hdeq]
          exact hq.symm
      · rw [if_neg hq]
        by_cases hrp : root = a :: l
        · constructor
          · intro hmem
            exfalso
            have hdlen : (a :: l).length ≤ d.length := by
              have h5 := hd.length_le
              rw [hrp] at h5
              exact h5
            rcases List.mem_cons.mp hmem with h1 | h2
            · subst h1
              rw [hqlen] at hdlen
              simp only [List.length_cons] at hdlen
              omega
            · have h6 := length_lt_of_mem_parentPathsAux root n _ _ h2
              rw [hqlen] at h6
              simp only [List.length_cons] at hdlen
              omega
          · rintro ⟨hpre, hne⟩
            exfalso
            have hlt : d.length < (a :: l).length :=
              Nat.lt_of_le_of_ne hpre.length_le
                (fun hc => hne (hpre.eq_of_length hc))
            have hdlen : (a :: l).length ≤ d.length := by
              have h5 := hd.length_le
              rw [hrp] at h5
              exact h5
            omega
        · have hrlen : root.length < (a :: l).length :=
            Nat.lt_of_le_of_ne hr.length_le
              (fun hc => hrp (hr.eq_of_length hc))
          have hrq : root <+: (a :: l).dropLast := by
            refine List.prefix_of_prefix_length_le hr hqpre ?_
            rw [hqlen]
            simp only [List.length_cons] at hrlen
            omega
          have ihq := ih (a :: l).dropLast
            (by rw [hqlen]; simp only [List.length_cons] at hn; omega) hrq d hd
          constructor
          · intro hmem
            rcases List.mem_cons.mp hmem with h1 | h2
            · subst h1
              refine ⟨hqpre, fun heq => ?_⟩
              have hcl := congrArg List.length heq
              rw [hqlen] at hcl
              simp only [List.length_cons] at hcl
              omega
            · obtain ⟨hpre, _⟩ := ihq.mp h2
              refine ⟨hpre.trans hqpre, fun heq => ?_⟩
              have h3 := hpre.length_le
              rw [heq, hqlen] at h3
              simp only [List.length_cons] at h3
              omega
          · rintro ⟨hpre, hne⟩
            have hlt : d.length < (a :: l).length :=
              Nat.lt_of_le_of_ne hpre.length_le
                (fun hc => hne (hpre.eq_of_length hc))
            have hdle : d.length ≤ ((a :: l).dropLast).length := by
              rw [hqlen]
              simp only [List.length_cons] at hlt
              omega
            have hdq : d <+: (a :: l).dropLast :=
              List.prefix_of_prefix_length_le hpre hqpre hdle
            by_cases hdq2 : d = (a :: l).dropLast
            · rw [hdq2]
              exact List.mem_cons_self _ _
            · exact List.mem_cons_of_mem _ (ihq.mpr ⟨hdq, hdq2⟩)

/-- Occurrence count of a path in a list of paths (used to value the
`DashMap` after repeated bumps). -/
def countPath (d : RPath) : List RPath → Nat
  | [] => 0
  | q :: qs => (if q = d then 1 else 0) + countPath d qs

theorem countPath_eq_zero_of_not_mem {d : RPath} :
    ∀ {ps : List RPath}, d ∉ ps → countPath d ps = 0 := by
  intro ps
  induction ps with
  | nil => intro _; rfl
  | cons q qs ih =>
    intro hmem
    have h1 : q ≠ d := fun hc => hmem (hc ▸ List.mem_cons_self _ _)
    have h2 : d ∉ qs := fun hc => hmem (List.mem_cons_of_mem _ hc)
    simp [countPath, h1, ih h2]

theorem countPath_eq_one_of_mem_nodup {d : RPath} :
    ∀ {ps : List RPath}, ps.Nodup → d ∈ ps → countPath d ps = 1 := by
  intro ps
  induction ps with
  | nil => intro _ h; simp at h
  | cons q qs ih =>
    intro hnd hmem
    rcases List.mem_cons.mp hmem with h1 | h2
    · subst h1
      have : d ∉ qs := (List.nodup_cons.mp hnd).1
      simp [countPath, countPath_eq_zero_of_not_mem this]
    · have hq : q ≠ d := by
        intro hc
        subst hc
        exact (List.nodup_cons.mp hnd).1 h2
      simp [countPath, hq, ih (List.nodup_cons.mp hnd).2 h2]

/-- Count of a candidate ancestor in the parent chain of `p`: one when
it is a proper ancestor of `p` at least as deep as the root, zero
otherwise. -/
theorem countPath_parentPaths (root p d : RPath) (hr : root <+: p)
    (hd : root <+: d) :
    countPath d (parentPaths root p) = if d <+: p ∧ d ≠ p then 1 else 0 := by
  have hmem := mem_parentPathsAux_iff root p.length p (Nat.le_refl _) hr d hd
  by_cases hcond : d <+: p ∧ d ≠ p
  · rw [if_pos hcond]
    exact countPath_eq_one_of_mem_nodup (nodup_parentPathsAux root _ _)
      (hmem.mpr hcond)
  · rw [if_neg hcond]
    exact countPath_eq_zero_of_not_mem (fun hc => hcond (hmem.mp hc))

theorem foldl_bumpBy (s : Nat) :
    ∀ (ps : List RPath) (m : RPath → Nat) (d : RPath),
      (ps.foldl (fun acc p => bumpBy acc p s) m) d = m d + s * countPath d ps := by
  intro ps
  induction ps with
  | nil => intro m d; simp [countPath]
  | cons p ps ih =>
    intro m d
    simp only [List.foldl_cons, countPath]
    rw [ih]
    by_cases h : p = d
    · subst h
      simp [bumpBy, Nat.mul_add, Nat.mul_one]
      ring
    · have h2 : d ≠ p := fun hc => h hc.symm
      simp [bumpBy, h, h2]

/-- Per-job contribution to the directory totals at key `d`. -/
def jobContrib (d : RPath) (j : ScanJob) : Nat :=
  if j.is_file then j.size * countPath d j.parent_paths else 0

theorem foldl_addJobTotals :
    ∀ (jobs : List ScanJob) (m : RPath → Nat) (d : RPath),
      (jobs.foldl addJobTotals m) d = m d + (jobs.map (jobContrib d)).sum := by
  intro jobs
  induction jobs with
  | nil => intro m d; simp
  | cons j jobs ih =>
    intro m d
    simp only [List.foldl_cons, List.map_cons, List.sum_cons]
    rw [ih]
    unfold addJobTotals jobContrib
    by_cases h : j.is_file
    · simp only [h, if_true]
      rw [foldl_bumpBy]
      ring
    · simp [h]

theorem dirTotals_eq (jobs : List ScanJob) (d : RPath) :
    dirTotals jobs d = (jobs.map (jobContrib d)).sum := by
  unfold dirTotals
  rw [foldl_addJobTotals]
  simp

theorem sum_map_ite_filter (f : WalkEntry → Nat) (P : WalkEntry → Bool) :
    ∀ l : List WalkEntry,
      (l.map (fun e => if P e then f e else 0)).sum = ((l.filter P).map f).sum := by
  intro l
  induction l with
  | nil => simp
  | cons e l ih =>
    by_cases h : P e
    · simp [h, ih]
    · simp [h, ih]

theorem jobContrib_mkScanJob (blocks : RPath → Nat) (root d : RPath)
    (e : WalkEntry) (he : root <+: e.path) (hd : root <+: d) :
    jobContrib d (mkScanJob blocks root e) =
      (if (e.is_file && d.isPrefixOf e.path && !(d == e.path)) = true
        then blocks e.path * 512 else 0) := by
  unfold jobContrib mkScanJob disk_usage
  by_cases hf : e.is_file
  · simp only [hf, if_true, Bool.true_and]
    rw [countPath_parentPaths root e.path d he hd]
    by_cases hcond : d <+: e.path ∧ d ≠ e.path
    · rw [if_pos hcond]
      have h1 : d.isPrefixOf e.path = true := List.isPrefixOf_iff_prefix.mpr hcond.1
      have h2 : (d == e.path) = false := by
        simp only [beq_eq_false_iff_ne, ne_eq]
        exact hcond.2
      simp [h1, h2]
    · rw [if_neg hcond]
      rcases Decidable.not_and_iff_or_not.mp hcond with h1 | h2
      · have : d.isPrefixOf e.path = false := by
          rw [Bool.eq_false_iff]
          intro hc
          exact h1 (List.isPrefixOf_iff_prefix.mp hc)
        simp [this]
      · have : (d == e.path) = true := by
          simp only [beq_iff_eq]
          exact Decidable.not_not.mp h2
        simp [this]
  · have hf2 : e.is_file = false := Bool.not_eq_true _ |>.mp hf
    simp [hf2]

/-- C1: in a scan not served from cache (fresh incremental scan with an
empty cache), every emitted directory record carries as its size the sum
of `st_blocks * 512` over exactly the surviving files of its subtree:
each file disk usage is accumulated into every ancestor up to and
including the root. -/
theorem scanEntries_dir_size_eq_subtree_sum (blocks : RPath → Nat)
    (excluded : RPath → Bool) (showOwner showInodes : Bool)
    (ownerOf : RPath → Option Nat) (root : RPath) (entries : List WalkEntry)
    (fe : FileEntry)
    (hroot : ∀ e ∈ entries, root <+: e.path)
    (hfe : fe ∈ scanEntries blocks excluded showOwner showInodes ownerOf root entries)
    (hdir : fe.entry_type = EntryType.Dir) :
    fe.size = subtreeFileSum blocks excluded root entries fe.path := by
  unfold scanEntries at hfe
  obtain ⟨j, hj, hfe2⟩ := List.mem_map.mp hfe
  obtain ⟨e, he, hje⟩ := List.mem_map.mp hj
  have hesurv : e ∈ entries := List.mem_of_mem_filter he
  have hepath : root <+: e.path := hroot e hesurv
  by_cases hf : j.is_file
  · exfalso
    rw [← hfe2] at hdir
    unfold composeEntry at hdir
    simp [hf] at hdir
  · have hf2 : j.is_file = false := Bool.not_eq_true _ |>.mp hf
    have hpath : fe.path = e.path := by
      rw [← hfe2]
      unfold composeEntry
      simp only [hf2, Bool.false_eq_true, if_false]
      rw [← hje]
      simp [mkScanJob]
    have hjpath : j.path = e.path := by rw [← hje]; rfl
    have hsize : fe.size = dirTotals (scanJobs blocks excluded root entries) j.path := by
      rw [← hfe2]
      unfold composeEntry
      simp [hf2]
    rw [hsize, hjpath, hpath]
    rw [dirTotals_eq]
    unfold scanJobs
    rw [List.map_map]
    unfold subtreeFileSum
    rw [← sum_map_ite_filter]
    have hd : root <+: e.path := hepath
    have hcong : ∀ x ∈ survivors excluded root entries,
        (jobContrib e.path ∘ mkScanJob blocks root) x =
          (fun e2 => if (e2.is_file && (e.path).isPrefixOf e2.path &&
              !(e.path == e2.path)) = true then blocks e2.path * 512 else 0) x := by
      intro x hx
      have hx2 : x ∈ entries := List.mem_of_mem_filter hx
      exact jobContrib_mkScanJob blocks root e.path x (hroot x hx2) hd
    rw [List.map_congr_left hcong]

/-- Closed witness for `scanEntries_dir_size_eq_subtree_sum` on a
four-entry tree rooted at `[0]` with two files; the directory record for
`[0, 1]` carries 3 blocks * 512 = 1536 bytes. -/
theorem scanEntries_dir_size_witness :
    (([⟨[0], false⟩, ⟨[0, 1], false⟩, ⟨[0, 1, 2], true⟩, ⟨[0, 3], true⟩] :
        List WalkEntry).all (fun e => ([0] : RPath).isPrefixOf e.path)) = true ∧
    ({ path := [0, 1], size := 1536, owner := none, inodes := none,
       entry_type := EntryType.Dir } : FileEntry).size =
      subtreeFileSum (fun p => p.length) (fun _ => false) [0]
        [⟨[0], false⟩, ⟨[0, 1], false⟩, ⟨[0, 1, 2], true⟩, ⟨[0, 3], true⟩]
        ({ path := [0, 1], size := 1536, owner := none, inodes := none,
           entry_type := EntryType.Dir } : FileEntry).path :=
  ⟨by decide,
    scanEntries_dir_size_eq_subtree_sum (fun p => p.length) (fun _ => false)
      false false (fun _ => none) [0]
      [⟨[0], false⟩, ⟨[0, 1], false⟩, ⟨[0, 1, 2], true⟩, ⟨[0, 3], true⟩]
      { path := [0, 1], size := 1536, owner := none, inodes := none,
        entry_type := EntryType.Dir }
      (by decide) (by decide) (by decide)⟩

/-- File contents as seen through bincode deserialization: a value of
the current `Cache` structure, a legacy bare `map<path, CacheEntry>`, an
empty file, or bytes deserializable as neither. -/
inductive FileContent where
  | cacheV2 : Cache → FileContent
  | legacyMap : List (RPath × CacheEntry) → FileContent
  | emptyFile : FileContent
  | garbage : FileContent
deriving DecidableEq, Repr

/-- On-disk state visible to the cache store: regular files by path. -/
def FS : Type := RPath → Option FileContent

/-- Atomic replacement of the file at `p` (the serialize, write-temp,
rename protocol of `save_cache_to_file`). -/
def FS.write (fs : FS) (p : RPath) (c : FileContent) : FS :=
  fun q => if q = p then some c else fs q

/-- `std::fs::remove_file`. -/
def FS.remove (fs : FS) (p : RPath) : FS :=
  fun q => if q = p then none else fs q

/-- The environment variables the cache store reads. -/
structure Env where
  rudu_cache_dir : Option RPath
  xdg_cache_home : Option RPath
  home : Option RPath

/-- Path component standing for the fixed name `.cache`. -/
def dotCacheName : Nat := 1001

/-- Path component standing for the fixed name `rudu`. -/
def ruduDirName : Nat := 1002

/-- Path component standing for `std::env::temp_dir()`. -/
def tempDirName : Nat := 1003

/-- Path component standing for the fixed name `rudu-cache`. -/
def ruduCacheTempName : Nat := 1004

/-- `cache::model::get_xdg_cache_dir` (src/cache/model.rs lines
297-306): `$XDG_CACHE_HOME`, else `$HOME/.cache`, else an error. -/
def get_xdg_cache_dir (env : Env) : Option RPath :=
  match env.xdg_cache_home with
  | some d => some d
  | none =>
    match env.home with
    | some h => some (h ++ [dotCacheName])
    | none => none

/-- `Cache::get_cache_path_without_write_test` (src/cache/model.rs lines
265-279): always `<xdg-cache-dir>/rudu/<hex-of-hash(root)>.bin`; the file
name component is modelled by the hash value itself (the hex rendering
plus `.bin` suffix is injective in the hash). -/
def get_cache_path_without_write_test (hash : RPath → Nat) (env : Env)
    (root : RPath) : Option RPath :=
  match get_xdg_cache_dir env with
  | some cacheDir => some (cacheDir ++ [ruduDirName, hash root])
  | none => none

/-- `cache::cache_root` (src/cache/mod.rs lines 61-71): `$RUDU_CACHE_DIR`
when set, else the XDG cache directory, else `temp_dir()/rudu-cache`. -/
def cache_root (env : Env) : RPath :=
  match env.rudu_cache_dir with
  | some d => d
  | none =>
    match get_xdg_cache_dir env with
    | some d => d
    | none => [tempDirName, ruduCacheTempName]

/-- `CacheHeader::new_with_mtime` (src/cache/model.rs lines 85-97). -/
def CacheHeader.new_with_mtime (root_path : RPath) (root_mtime : Option Nat)
    (now ver : Nat) : CacheHeader :=
  { root_path := root_path, creation_time := now, rudu_version := ver,
    root_mtime := root_mtime }

/-- `CacheHeader::new` (src/cache/model.rs lines 68-82): stamps the
current time and version and records `get_root_mtime(root_path)` through
the observation oracle `mtimeOf`. -/
def CacheHeader.new (root_path : RPath) (mtimeOf : RPath → Option Nat)
    (now ver : Nat) : CacheHeader :=
  { root_path := root_path, creation_time := now, rudu_version := ver,
    root_mtime := mtimeOf root_path }

/-- Lookup in an association list (Rust `HashMap` read). -/
def lookupA {κ α : Type} [DecidableEq κ] (k : κ) : List (κ × α) → Option α
  | [] => none
  | kv :: rest => if kv.1 = k then some kv.2 else lookupA k rest

/-- Removal of all pairs with the given key. -/
def eraseKeyA {κ α : Type} [DecidableEq κ] (k : κ) (m : List (κ × α)) :
    List (κ × α) :=
  m.filter (fun kv => decide (kv.1 ≠ k))

/-- Rust `HashMap::insert`: the new pair replaces any pair with the same
key. -/
def insertA {κ α : Type} [DecidableEq κ] (m : List (κ × α)) (k : κ) (v : α) :
    List (κ × α) :=
  (k, v) :: eraseKeyA k m

/-- Rust `collect::<HashMap<_, _>>()` over a pair iterator: repeated
insertion, later pairs overwriting earlier ones with the same key. -/
def collectA {κ α : Type} [DecidableEq κ] (l : List (κ × α)) : List (κ × α) :=
  l.foldl (fun m kv => insertA m kv.1 kv.2) []

/-- The hash-keyed entry map built by `save_cache_with_mtime`
(src/cache/mod.rs lines 201-209) and by the legacy lift in
`load_cache_from_file` (lines 251-258): each entry is rekeyed by the
hash of its map path, and its `path` field is overwritten with that
path. -/
def savedEntries (hash : RPath → Nat) (E : List (RPath × CacheEntry)) :
    List (Nat × CacheEntry) :=
  collectA (E.map (fun pe => (hash pe.1, { pe.2 with path := pe.1 })))

/-- `load_cache_from_file` (src/cache/mod.rs lines 218-263): an empty
file is an error; current-format contents deserialize as-is; legacy
contents are lifted with a synthetic header rooted at the cache file
parent directory; anything else is an error. -/
def load_cache_from_file (hash : RPath → Nat) (mtimeOf : RPath → Option Nat)
    (now ver : Nat) (content : FileContent) (path : RPath) :
    Except Unit Cache :=
  match content with
  | FileContent.emptyFile => Except.error ()
  | FileContent.cacheV2 c => Except.ok c
  | FileContent.legacyMap m =>
    Except.ok
      { header := CacheHeader.new path.dropLast mtimeOf now ver,
        entries := savedEntries hash m }
  | FileContent.garbage => Except.error ()

/-- `load_cache` (src/cache/mod.rs lines 85-126), returning the loaded
path-keyed map together with the filesystem after the call (the only
write is the removal of an invalidated cache file).  `enabled` is the
process-wide `CACHE_ENABLED` flag. -/
def load_cache (enabled : Bool) (hash : RPath → Nat)
    (mtimeOf : RPath → Option Nat) (env : Env) (fs : FS) (root : RPath)
    (ttl_seconds : Nat) (now ver : Nat) :
    List (RPath × CacheEntry) × FS :=
  if !enabled then ([], fs)
  else
    match get_cache_path_without_write_test hash env root with
    | none => ([], fs)
    | some cache_path =>
      match fs cache_path with
      | none => ([], fs)
      | some content =>
        match load_cache_from_file hash mtimeOf now ver content cache_path with
        | Except.ok cache =>
          if cache.header.should_invalidate root ttl_seconds now ver
              (mtimeOf root) then
            ([], fs.remove cache_path)
          else
            (collectA (cache.entries.map (fun kv => (kv.2.path, kv.2))), fs)
        | Except.error _ => ([], fs)

/-- `save_cache_with_mtime` (src/cache/mod.rs lines 180-215): a no-op
success when caching is disabled, otherwise an atomic write of the
header plus rekeyed entries at the resolved cache path. -/
def save_cache_with_mtime (enabled : Bool) (hash : RPath → Nat) (env : Env)
    (now ver : Nat) (fs : FS) (root : RPath)
    (cache : List (RPath × CacheEntry)) (root_mtime : Option Nat) :
    Except Unit Unit × FS :=
  if !enabled then (Except.ok (), fs)
  else
    match get_cache_path_without_write_test hash env root with
    | none => (Except.error (), fs)
    | some cache_path =>
      (Except.ok (),
        fs.write cache_path
          (FileContent.cacheV2
            { header := CacheHeader.new_with_mtime root root_mtime now ver,
              entries := savedEntries hash cache }))

/-- `save_cache` (src/cache/mod.rs lines 139-143): captures the current
root mtime and delegates. -/
def save_cache (enabled : Bool) (hash : RPath → Nat) (env : Env)
    (now ver : Nat) (mtimeOf : RPath → Option Nat) (fs : FS) (root : RPath)
    (cache : List (RPath × CacheEntry)) : Except Unit Unit × FS :=
  save_cache_with_mtime enabled hash env now ver fs root cache (mtimeOf root)

/-- `invalidate_cache` (src/cache/mod.rs lines 155-166). -/
def invalidate_cache (hash : RPath → Nat) (env : Env) (fs : FS)
    (root : RPath) : Except Unit Bool × FS :=
  match get_cache_path_without_write_test hash env root with
  | none => (Except.error (), fs)
  | some cache_path =>
    match fs cache_path with
    | some _ => (Except.ok true, fs.remove cache_path)
    | none => (Except.ok false, fs)

/-- C4: with the process-wide cache flag off, `load_cache` returns the
empty map for every filesystem state, root and TTL, and both
`save_cache_with_mtime` and `save_cache` succeed silently without
touching the filesystem. -/
theorem cache_disabled_noop (hash : RPath → Nat) (mtimeOf : RPath → Option Nat)
    (env : Env) (fs : FS) (root : RPath) (ttl now ver : Nat)
    (cache : List (RPath × CacheEntry)) (root_mtime : Option Nat) :
    load_cache false hash mtimeOf env fs root ttl now ver = ([], fs) ∧
    save_cache_with_mtime false hash env now ver fs root cache root_mtime =
      (Except.ok (), fs) ∧
    save_cache false hash env now ver mtimeOf fs root cache =
      (Except.ok (), fs) :=
  ⟨rfl, rfl, rfl⟩

/-- A concrete path-hash function (summing components) used by the
closed counterexamples; the statements they establish hold for any hash
function, this one merely instantiates the model. -/
def sumHash (p : RPath) : Nat := p.foldl (fun a x => a + x) 0

/-- Concrete environment for the C5 counterexample: only
`XDG_CACHE_HOME=[20]` is set. -/
def envC5 : Env :=
  { rudu_cache_dir := none, xdg_cache_home := some [20], home := none }

/-- Filesystem for the C5 counterexample: undeserializable bytes sit at
the resolved cache path `[20, rudu, hash [0]]` for root `[0]`. -/
def fsC5 : FS :=
  FS.write (fun _ => none) [20, ruduDirName, 0] FileContent.garbage

/-- C5 counterexample: loading a corrupted cache file returns the empty
map, but the offending file is NOT removed — it is still present,
unchanged, after the call (removal only happens in the invalidation
branch, which is unreachable when deserialization fails). -/
theorem load_cache_corrupt_no_removal_counterexample :
    (load_cache true sumHash (fun _ => none) envC5 fsC5 [0] 604800 5 1).1 =
      [] ∧
    (load_cache true sumHash (fun _ => none) envC5 fsC5 [0] 604800 5 1).2
      [20, ruduDirName, 0] = some FileContent.garbage := by
  constructor
  · rfl
  · rfl

/-- C5 amended: for a cache file whose bytes fail to deserialize
(garbage from arbitrary truncation, or the empty file), `load_cache`
returns the empty map without propagating any error, and leaves the
filesystem untouched: the offending file is not removed. -/
theorem load_cache_corrupt_returns_empty (hash : RPath → Nat)
    (mtimeOf : RPath → Option Nat) (env : Env) (fs : FS) (root : RPath)
    (ttl now ver : Nat) (cp : RPath)
    (hcp : get_cache_path_without_write_test hash env root = some cp)
    (hcor : fs cp = some FileContent.garbage ∨
      fs cp = some FileContent.emptyFile) :
    load_cache true hash mtimeOf env fs root ttl now ver = ([], fs) := by
  rcases hcor with h | h <;>
    simp [load_cache, hcp, h, load_cache_from_file]

/-- Closed witness for `load_cache_corrupt_returns_empty` on an empty
cache file. -/
theorem load_cache_corrupt_returns_empty_witness :
    get_cache_path_without_write_test sumHash envC5 [0] =
      some [20, ruduDirName, 0] ∧
    (FS.write (fun _ => none) [20, ruduDirName, 0] FileContent.emptyFile)
        [20, ruduDirName, 0] = some FileContent.emptyFile ∧
    load_cache true sumHash (fun _ => none) envC5
      (FS.write (fun _ => none) [20, ruduDirName, 0] FileContent.emptyFile)
      [0] 604800 5 1 =
      ([], FS.write (fun _ => none) [20, ruduDirName, 0] FileContent.emptyFile) :=
  ⟨rfl, rfl,
    load_cache_corrupt_returns_empty sumHash (fun _ => none) envC5
      (FS.write (fun _ => none) [20, ruduDirName, 0] FileContent.emptyFile)
      [0] 604800 5 1 [20, ruduDirName, 0] rfl (Or.inr rfl)⟩

/-- Environment for the C6 scenario: `RUDU_CACHE_DIR=[50]` is set and
`XDG_CACHE_HOME=[60]` is also available. -/
def envC6 : Env :=
  { rudu_cache_dir := some [50], xdg_cache_home := some [60], home := none }

/-- A concrete directory cache entry for root `[7]`. -/
def entC6 : CacheEntry :=
  { path_hash := 15, path := [7, 8], size := 100, mtime := 9, nlink := 2,
    inode_cnt := none, owner := none, entry_type := EntryType.Dir }

/-- Filesystem for the C6 scenario: a well-formed, non-invalidated cache
for root `[7]` sits exactly where the claim says it should,
`$RUDU_CACHE_DIR/<hash-of-root>.bin = [50, 7]`. -/
def fsC6 : FS :=
  FS.write (fun _ => none) [50, 7]
    (FileContent.cacheV2
      { header := CacheHeader.new_with_mtime [7] (some 3) 5 1,
        entries := savedEntries sumHash [([7, 8], entC6)] })

/-- C6: `cache_root` honours `RUDU_CACHE_DIR`, but the cache operations
do not: `get_cache_path_without_write_test` — used by `load_cache`,
`save_cache_with_mtime` and `invalidate_cache` alike — resolves to the
XDG location `[60, rudu, 7]` even though `RUDU_CACHE_DIR` is set, so a
valid cache placed at the claimed location `$RUDU_CACHE_DIR/<hash>.bin`
is not seen by `load_cache`, `invalidate_cache` reports that no cache
file exists, and a save writes to the XDG location, leaving the
`RUDU_CACHE_DIR` tree untouched. -/
theorem cache_ops_ignore_rudu_cache_dir :
    cache_root envC6 = [50] ∧
    get_cache_path_without_write_test sumHash envC6 [7] =
      some [60, ruduDirName, 7] ∧
    get_cache_path_without_write_test sumHash envC6 [7] ≠
      some (cache_root envC6 ++ [sumHash [7]]) ∧
    (load_cache true sumHash (fun _ => some 3) envC6 fsC6 [7] 604800 5 1).1 =
      [] ∧
    (invalidate_cache sumHash envC6 fsC6 [7]).1 = Except.ok false ∧
    (save_cache_with_mtime true sumHash envC6 5 1 fsC6 [7]
        [([7, 8], entC6)] (some 3)).2 [60, ruduDirName, 7] ≠ none ∧
    (save_cache_with_mtime true sumHash envC6 5 1 fsC6 [7]
        [([7, 8], entC6)] (some 3)).2 [50, 7] = fsC6 [50, 7] := by
  refine ⟨rfl, rfl, by decide, rfl, rfl, by decide, rfl⟩

/-- Environment for the C7 scenario: only `XDG_CACHE_HOME=[60]`. -/
def envC7 : Env :=
  { rudu_cache_dir := none, xdg_cache_home := some [60], home := none }

/-- A legacy cache entry as stored in a bare-map cache file for root
`[7]` (its `path` field is stale, as the legacy lift overwrites it). -/
def entC7 : CacheEntry :=
  { path_hash := 15, path := [99], size := 100, mtime := 9, nlink := 2,
    inode_cnt := none, owner := none, entry_type := EntryType.Dir }

/-- Filesystem for the C7 scenario: a legacy-format cache file for root
`[7]` at the resolved cache path `[60, rudu, 7]`. -/
def fsC7 : FS :=
  FS.write (fun _ => none) [60, ruduDirName, 7]
    (FileContent.legacyMap [([7, 8], entC7)])

/-- C7: `load_cache_from_file` does accept the legacy bare-map format
and lifts it (entries rekeyed by path hash, synthetic header), but the
synthetic header's `root_path` is the cache file's parent directory
`[60, rudu]`, not the scanned root `[7]`; `should_invalidate` therefore
fires on the root-path mismatch, so `load_cache` for the root the cache
was built under returns the EMPTY map — the entries are discarded — and
removes the cache file, contradicting the claim that the entries become
available to the caller. -/
theorem legacy_cache_discarded_by_load :
    load_cache_from_file sumHash (fun _ => some 3) 5 1
      (FileContent.legacyMap [([7, 8], entC7)]) [60, ruduDirName, 7] =
      Except.ok
        { header := { root_path := [60, ruduDirName], creation_time := 5,
                      rudu_version := 1, root_mtime := some 3 },
          entries := [(15, { entC7 with path := [7, 8] })] } ∧
    (load_cache true sumHash (fun _ => some 3) envC7 fsC7 [7] 604800 5 1).1 =
      [] ∧
    (load_cache true sumHash (fun _ => some 3) envC7 fsC7 [7] 604800 5 1).2
      [60, ruduDirName, 7] = none := by
  refine ⟨rfl, rfl, rfl⟩

theorem eraseKeyA_of_not_mem {κ α : Type} [DecidableEq κ] (k : κ) :
    ∀ (m : List (κ × α)), k ∉ m.map Prod.fst → eraseKeyA k m = m := by
  intro m
  induction m with
  | nil => intro _; rfl
  | cons kv rest ih =>
    intro hk
    have h1 : kv.1 ≠ k := by
      intro hc
      exact hk (by rw [List.map_cons, hc]; exact List.mem_cons_self _ _)
    have h2 : k ∉ rest.map Prod.fst := by
      intro hc
      exact hk (by rw [List.map_cons]; exact List.mem_cons_of_mem _ hc)
    have h3 : decide (kv.1 ≠ k) = true := by simp [h1]
    have h4 := ih h2
    unfold eraseKeyA at h4 ⊢
    rw [List.filter_cons, h3]
    simp only [if_true]
    rw [h4]

theorem foldl_insertA_of_nodup {κ α : Type} [DecidableEq κ] :
    ∀ (l acc : List (κ × α)),
      ((l.map Prod.fst) ++ (acc.map Prod.fst)).Nodup →
      l.foldl (fun m kv => insertA m kv.1 kv.2) acc = l.reverse ++ acc := by
  intro l
  induction l with
  | nil => intro acc _; simp
  | cons kv l ih =>
    intro acc hnd
    simp only [List.foldl_cons]
    have hknotacc : kv.1 ∉ acc.map Prod.fst := by
      simp only [List.map_cons, List.cons_append, List.nodup_cons] at hnd
      intro hc
      exact hnd.1 (List.mem_append.mpr (Or.inr hc))
    have hins : insertA acc kv.1 kv.2 = (kv.1, kv.2) :: acc := by
      unfold insertA
      rw [eraseKeyA_of_not_mem kv.1 acc hknotacc]
    rw [hins]
    have hperm :
        ((l.map Prod.fst) ++ (((kv.1, kv.2) :: acc).map Prod.fst)).Perm
          (((kv :: l).map Prod.fst) ++ (acc.map Prod.fst)) := by
      simp only [List.map_cons]
      exact List.perm_middle
    have hnd2 : ((l.map Prod.fst) ++ (((kv.1, kv.2) :: acc).map Prod.fst)).Nodup :=
      hperm.nodup_iff.mpr hnd
    rw [ih ((kv.1, kv.2) :: acc) hnd2]
    simp

theorem collectA_of_nodup {κ α : Type} [DecidableEq κ] (l : List (κ × α))
    (h : (l.map Prod.fst).Nodup) : collectA l = l.reverse := by
  unfold collectA
  rw [foldl_insertA_of_nodup l [] (by simpa using h)]
  simp

theorem CacheEntry.update_path_self (e : CacheEntry) :
    { e with path := e.path } = e := by
  cases e
  rfl

/-- C8 amended: the save-then-load round trip restores the map exactly,
provided the cache is enabled, no invalidation condition holds at load
time (same version, TTL not yet expired, same root, root mtime unchanged
since the save), every entry's `path` field agrees with its map key (the
save overwrites the field with the key, so a mismatched field would not
survive), and the path hash has no collision among the map's keys (a
collision would merge two entries in the hash-keyed on-disk map). -/
theorem save_load_roundtrip (hash : RPath → Nat) (mtimeOf : RPath → Option Nat)
    (env : Env) (fs : FS) (root : RPath) (E : List (RPath × CacheEntry))
    (root_mtime : Option Nat) (ttl now now2 ver : Nat) (cp : RPath)
    (hcp : get_cache_path_without_write_test hash env root = some cp)
    (ha : ∀ pe ∈ E, pe.2.path = pe.1)
    (hb : (E.map (fun pe => hash pe.1)).Nodup)
    (hk : (E.map Prod.fst).Nodup)
    (ht : now2 - now < ttl)
    (hm : mtimeOf root = root_mtime) :
    (load_cache true hash mtimeOf env
      (save_cache_with_mtime true hash env now ver fs root E root_mtime).2
      root ttl now2 ver).1 = E := by
  have hinv : CacheHeader.should_invalidate
      (CacheHeader.new_with_mtime root root_mtime now ver) root ttl now2 ver
      (mtimeOf root) = false := by
    unfold CacheHeader.should_invalidate CacheHeader.new_with_mtime
    simp only []
    rw [if_neg (by simp), if_neg (by simpa using Nat.not_le.mpr ht),
      if_neg (by simp)]
    rw [hm]
    match root_mtime with
    | none => rfl
    | some k => simp
  have hsave : (save_cache_with_mtime true hash env now ver fs root E
      root_mtime).2 =
      fs.write cp (FileContent.cacheV2
        { header := CacheHeader.new_with_mtime root root_mtime now ver,
          entries := savedEntries hash E }) := by
    simp [save_cache_with_mtime, hcp]
  rw [hsave]
  have hread : (fs.write cp (FileContent.cacheV2
      { header := CacheHeader.new_with_mtime root root_mtime now ver,
        entries := savedEntries hash E })) cp =
      some (FileContent.cacheV2
        { header := CacheHeader.new_with_mtime root root_mtime now ver,
          entries := savedEntries hash E }) := by
    simp [FS.write]
  simp only [load_cache, Bool.not_true, Bool.false_eq_true, if_false, hcp,
    hread, load_cache_from_file, hinv]
  have hl1keys : ((E.map (fun pe =>
      (hash pe.1, { pe.2 with path := pe.1 }))).map Prod.fst).Nodup := by
    rw [List.map_map]
    exact hb
  have hS : savedEntries hash E =
      (E.map (fun pe => (hash pe.1, { pe.2 with path := pe.1 }))).reverse := by
    unfold savedEntries
    exact collectA_of_nodup _ hl1keys
  rw [hS]
  rw [List.map_reverse]
  have hmapg : (E.map (fun pe => (hash pe.1, { pe.2 with path := pe.1 }))).map
      (fun kv => (kv.2.path, kv.2)) =
      E.map (fun pe => (pe.1, { pe.2 with path := pe.1 })) := by
    rw [List.map_map]
    rfl
  rw [hmapg]
  have hl2keys : (((E.map (fun pe =>
      (pe.1, { pe.2 with path := pe.1 }))).reverse).map Prod.fst).Nodup := by
    rw [List.map_reverse]
    rw [List.map_map]
    exact List.nodup_reverse.mpr hk
  rw [collectA_of_nodup _ hl2keys]
  rw [List.reverse_reverse]
  have hfix : ∀ pe ∈ E, (fun pe => (pe.1, { pe.2 with path := pe.1 })) pe =
      id pe := by
    intro pe hpe
    obtain ⟨p, e⟩ := pe
    have hpath : e.path = p := ha (p, e) hpe
    simp only [id]
    rw [← hpath]
  rw [List.map_congr_left hfix, List.map_id]

/-- A cache entry whose `path` field disagrees with the map key it will
be stored under. -/
def entC8 : CacheEntry :=
  { path_hash := 3, path := [2], size := 1, mtime := 2, nlink := 2,
    inode_cnt := none, owner := none, entry_type := EntryType.Dir }

/-- C8 counterexample: saving the one-entry map `{[1] ↦ entC8}` (whose
entry carries `path = [2]`) and loading it back under conditions where
no invalidation fires yields an entry whose `path` field has been
rewritten to the map key `[1]`; the loaded map is therefore not
entry-wise equal to the saved one, refuting the unconditional round-trip
claim. -/
theorem save_load_roundtrip_counterexample :
    CacheHeader.should_invalidate
      (CacheHeader.new_with_mtime [7] (some 3) 5 1) [7] 604800 5 1 (some 3) =
      false ∧
    (load_cache true sumHash (fun _ => some 3) envC7
      (save_cache_with_mtime true sumHash envC7 5 1 (fun _ => none) [7]
        [([1], entC8)] (some 3)).2 [7] 604800 5 1).1 =
      [([1], { entC8 with path := [1] })] ∧
    (load_cache true sumHash (fun _ => some 3) envC7
      (save_cache_with_mtime true sumHash envC7 5 1 (fun _ => none) [7]
        [([1], entC8)] (some 3)).2 [7] 604800 5 1).1 ≠ [([1], entC8)] := by
  refine ⟨rfl, rfl, by decide⟩

/-- A cache entry whose `path` field agrees with its map key `[1]`. -/
def entC8ok : CacheEntry :=
  { path_hash := 3, path := [1], size := 1, mtime := 2, nlink := 2,
    inode_cnt := none, owner := none, entry_type := EntryType.Dir }

/-- Closed witness for `save_load_roundtrip` on a consistent one-entry
map. -/
theorem save_load_roundtrip_witness :
    (load_cache true sumHash (fun _ => some 3) envC7
      (save_cache_with_mtime true sumHash envC7 5 1 (fun _ => none) [7]
        [([1], entC8ok)] (some 3)).2 [7] 604800 5 1).1 = [([1], entC8ok)] :=
  save_load_roundtrip sumHash (fun _ => some 3) envC7 (fun _ => none) [7]
    [([1], entC8ok)] (some 3) 604800 5 5 1 [60, ruduDirName, 7] rfl
    (by decide) (by decide) (by decide) (by decide) rfl

theorem lookupA_eraseKeyA_ne {κ α : Type} [DecidableEq κ] (k0 k : κ)
    (hne : k0 ≠ k) :
    ∀ m : List (κ × α), lookupA k (eraseKeyA k0 m) = lookupA k m := by
  intro m
  induction m with
  | nil => rfl
  | cons kv rest ih =>
    by_cases h : kv.1 = k0
    · have h2 : kv.1 ≠ k := by rw [h]; exact hne
      have h3 : decide (kv.1 ≠ k0) = false := by simp [h]
      unfold eraseKeyA at ih ⊢
      rw [List.filter_cons, h3]
      simp only [Bool.false_eq_true, if_false]
      rw [ih]
      have h5 : lookupA k (kv :: rest) = lookupA k rest := by
        simp only [lookupA, if_neg h2]
      rw [h5]
    · have h3 : decide (kv.1 ≠ k0) = true := by simp [h]
      unfold eraseKeyA at ih ⊢
      rw [List.filter_cons, h3]
      simp only [if_true]
      unfold lookupA
      by_cases h4 : kv.1 = k
      · rw [if_pos h4, if_pos h4]
      · rw [if_neg h4, if_neg h4]
        exact ih

theorem mem_of_lookupA_foldl_insertA {κ α : Type} [DecidableEq κ] :
    ∀ (l acc : List (κ × α)) (k : κ) (v : α),
      lookupA k (l.foldl (fun m kv => insertA m kv.1 kv.2) acc) = some v →
      (k, v) ∈ l ∨ lookupA k acc = some v := by
  intro l
  induction l with
  | nil => intro acc k v h; exact Or.inr h
  | cons kv l ih =>
    intro acc k v h
    simp only [List.foldl_cons] at h
    rcases ih (insertA acc kv.1 kv.2) k v h with h1 | h2
    · exact Or.inl (List.mem_cons_of_mem _ h1)
    · unfold insertA lookupA at h2
      by_cases h3 : kv.1 = k
      · rw [if_pos h3] at h2
        have hv : v = kv.2 := by
          injection h2 with h4
          exact h4.symm
        subst hv
        subst h3
        exact Or.inl (List.mem_cons_self _ _)
      · rw [if_neg h3] at h2
        have := lookupA_eraseKeyA_ne kv.1 k h3 acc
        rw [this] at h2
        exact Or.inr h2

theorem mem_of_lookupA_collectA {κ α : Type} [DecidableEq κ]
    (l : List (κ × α)) (k : κ) (v : α)
    (h : lookupA k (collectA l) = some v) : (k, v) ∈ l := by
  rcases mem_of_lookupA_foldl_insertA l [] k v h with h1 | h2
  · exact h1
  · exact absurd h2 (by simp [lookupA])

/-- C10 amended: in the hash-keyed entry map produced by a save (and by
the legacy lift, which builds its entries through the same rekeying),
the KEY under which an entry is stored always equals the hash of the
entry's `path` field; the `path_hash` FIELD inside the entry, however,
is carried over unchanged from the input and need not equal
`hash(path)`. -/
theorem savedEntries_key_eq_hash (hash : RPath → Nat)
    (E : List (RPath × CacheEntry)) (k : Nat) (e : CacheEntry)
    (h : lookupA k (savedEntries hash E) = some e) : k = hash e.path := by
  have hmem := mem_of_lookupA_collectA _ k e h
  obtain ⟨pe, _, hpe⟩ := List.mem_map.mp hmem
  have hk : hash pe.1 = k := congrArg Prod.fst hpe
  have he : ({ pe.2 with path := pe.1 } : CacheEntry) = e :=
    congrArg Prod.snd hpe
  have hpath : e.path = pe.1 := by rw [← he]
  rw [hpath, hk]

/-- A cache entry with a stale `path_hash` field. -/
def entC10 : CacheEntry :=
  { path_hash := 999, path := [1], size := 1, mtime := 2, nlink := 2,
    inode_cnt := none, owner := none, entry_type := EntryType.Dir }

/-- C10 counterexample: a save of the map `{[1] ↦ entC10}` (with
`entC10.path_hash = 999` while `hash([1]) = 1`) produces a cache whose
stored entry still carries `path_hash = 999 ≠ hash(path) = 1`; the entry
is filed under key `1`, not under its `path_hash` field. -/
theorem savedEntries_stale_path_hash_counterexample :
    (save_cache_with_mtime true sumHash envC7 5 1 (fun _ => none) [7]
        [([1], entC10)] (some 3)).2 [60, ruduDirName, 7] =
      some (FileContent.cacheV2
        { header := CacheHeader.new_with_mtime [7] (some 3) 5 1,
          entries := savedEntries sumHash [([1], entC10)] }) ∧
    lookupA 1 (savedEntries sumHash [([1], entC10)]) = some entC10 ∧
    entC10.path_hash = 999 ∧
    sumHash entC10.path = 1 ∧
    entC10.path_hash ≠ sumHash entC10.path := by
  refine ⟨rfl, rfl, rfl, rfl, by decide⟩

/-- Closed witness for `savedEntries_key_eq_hash` at a concrete stored
entry: the entry `entC10` is stored under key `1 = sumHash [1]`. -/
theorem savedEntries_key_eq_hash_witness :
    lookupA 1 (savedEntries sumHash [([1], entC10)]) = some entC10 ∧
    (1 : Nat) = sumHash entC10.path :=
  ⟨rfl, savedEntries_key_eq_hash sumHash [([1], entC10)] 1 entC10 rfl⟩


/-- Fuelled binary logarithm on naturals (floor of log2, structural so
that closed instances reduce inside the kernel). -/
def log2fuel : Nat → Nat → Nat
  | 0, _ => 0
  | fuel + 1, n => if 2 ≤ n then log2fuel fuel (n / 2) + 1 else 0

/-- Floor of the binary logarithm of a positive natural. -/
def nlog2 (n : Nat) : Nat := log2fuel n n

/-- Division of naturals rounded to the nearest integer, ties to even
(the IEEE-754 rounding of `a / b`, used with `b` a power of two to drop
low-order bits of an exact product). -/
def rneDiv (a b : Nat) : Nat :=
  let q := a / b
  let r := a % b
  if 2 * r < b then q
  else if b < 2 * r then q + 1
  else if q % 2 = 0 then q else q + 1

/-- A nonnegative IEEE-754 binary64 value: `sig * 2 ^ (exp - 52)`, with
`2^52 ≤ sig < 2^53` for nonzero values (the relevant values are all
strictly inside the normal range). -/
structure F64 where
  sig : Nat
  exp : Int
deriving DecidableEq, Repr

/-- Conversion `u64 as f64`: exact when the integer fits in 53 bits,
rounded to nearest (ties to even) otherwise. -/
def natToF64 (n : Nat) : F64 :=
  if n = 0 then { sig := 0, exp := 0 }
  else
    let e := nlog2 n
    if e ≤ 52 then { sig := n * 2 ^ (52 - e), exp := (e : Int) }
    else
      let sig0 := rneDiv n (2 ^ (e - 52))
      if sig0 = 2 ^ 53 then { sig := 2 ^ 52, exp := (e : Int) + 1 }
      else { sig := sig0, exp := (e : Int) }

/-- Binary64 multiplication: exact product of the significands, then
rounding to 53 bits (ties to even) and renormalization. -/
def mulF64 (a b : F64) : F64 :=
  if a.sig = 0 ∨ b.sig = 0 then { sig := 0, exp := 0 }
  else
    let p := a.sig * b.sig
    let k := nlog2 p
    let sig0 := rneDiv p (2 ^ (k - 52))
    let exp0 : Int := a.exp + b.exp + (k : Int) - 104
    if sig0 = 2 ^ 53 then { sig := 2 ^ 52, exp := exp0 + 1 }
    else { sig := sig0, exp := exp0 }

/-- Truncation `f64 as u64` of a nonnegative value: drop the fractional
part. -/
def truncF64 (x : F64) : Nat :=
  if 52 ≤ x.exp then x.sig * 2 ^ (x.exp - 52).toNat
  else x.sig / 2 ^ ((52 : Int) - x.exp).toNat

/-- The binary64 value of the source literal `0.95` (`warn_threshold`
in `MemoryMonitor::new_with_interval`): since `1/2 ≤ 19/20 < 1` its
exponent is `-1` and its significand is `19/20 * 2^53` rounded to
nearest (ties to even); the resulting value is slightly BELOW 19/20. -/
def f64lit095 : F64 := { sig := rneDiv (19 * 2 ^ 53) 20, exp := -1 }

/-- Mirror of `memory::MemoryMonitor` (the fields the limit predicates
read; the sysinfo handle and the throttling clock only affect how the
RSS sample is produced, and the sample is passed to the predicates as an
`Option`). -/
structure MemoryMonitor where
  limit_bytes : Nat

/-- `MemoryMonitor::new_with_interval` (src/memory.rs lines 21-36):
`limit_bytes = limit_mb * 1024 * 1024`, `warn_threshold = 0.95`. -/
def MemoryMonitor.new_with_interval (limit_mb : Nat) : MemoryMonitor :=
  { limit_bytes := limit_mb * 1024 * 1024 }

/-- `MemoryMonitor::new` (src/memory.rs lines 16-18). -/
def MemoryMonitor.new (limit_mb : Nat) : MemoryMonitor :=
  MemoryMonitor.new_with_interval limit_mb

/-- The value `(self.limit_bytes as f64 * self.warn_threshold) as u64`
computed inside `nearing_limit` (src/memory.rs line 60). -/
def nearingThreshold (limit_bytes : Nat) : Nat :=
  truncF64 (mulF64 (natToF64 limit_bytes) f64lit095)

/-- `MemoryMonitor::exceeds_limit` (src/memory.rs lines 42-51), with the
RSS sample `get_current_memory_usage()` passed in explicitly. -/
def MemoryMonitor.exceeds_limit (m : MemoryMonitor) (rss : Option Nat) : Bool :=
  match rss with
  | some usage => decide (m.limit_bytes ≤ usage)
  | none => false

/-- `MemoryMonitor::nearing_limit` (src/memory.rs lines 57-69). -/
def MemoryMonitor.nearing_limit (m : MemoryMonitor) (rss : Option Nat) : Bool :=
  match rss with
  | some usage => decide (nearingThreshold m.limit_bytes ≤ usage)
  | none => false

set_option maxRecDepth 100000

/-- C9 counterexample: for the configured limit of 1 MB the computed
nearing threshold is `trunc(1048576 * 0.95_f64) = 996147`, strictly
below the exact `0.95 * 1048576 = 996147.2`; an RSS sample of exactly
996147 bytes therefore makes `nearing_limit` return true although
`rss >= 0.95 * limit` is false (20 * 996147 < 19 * 1048576), refuting
the claimed equivalence. -/
theorem nearing_limit_claim_counterexample :
    (MemoryMonitor.new 1).nearing_limit (some 996147) = true ∧
    ¬ (19 * (MemoryMonitor.new 1).limit_bytes ≤ 20 * 996147) := by
  constructor
  · decide
  · decide

/-- C9 amended: `exceeds_limit` is true iff the RSS sample is at least
`limit_bytes`; when the RSS sample is unavailable both predicates return
false (bypass mode, never a false positive); `nearing_limit` is true iff
the RSS sample is at least the TRUNCATED binary64 threshold
`(limit_bytes as f64 * 0.95) as u64` — not the exact `0.95 * limit`: at
the configured limit of 1 MB that threshold is 996147, which is strictly
below `0.95 * 1048576 = 996147.2`. -/
theorem memory_monitor_limits (m : MemoryMonitor) (u : Nat) :
    (m.exceeds_limit (some u) = true ↔ m.limit_bytes ≤ u) ∧
    m.exceeds_limit none = false ∧
    m.nearing_limit none = false ∧
    (m.nearing_limit (some u) = true ↔ nearingThreshold m.limit_bytes ≤ u) ∧
    nearingThreshold (MemoryMonitor.new 1).limit_bytes = 996147 ∧
    20 * nearingThreshold (MemoryMonitor.new 1).limit_bytes <
      19 * (MemoryMonitor.new 1).limit_bytes := by
  refine ⟨?_, rfl, rfl, ?_, by decide, by decide⟩
  · simp [MemoryMonitor.exceeds_limit]
  · simp [MemoryMonitor.nearing_limit]
